import Mathlib

/-!
# MIDI2LR: the inbound IPC bridge and the command table painter

A shallow embedding of `Source/LR_IPC_In.cpp` (`timerCallback`, `run`,
`processLine`) and of `CommandTableModel::paintCell`, with the properties of
the natural-language specification stated over it.

Strings are lists of characters.  The methods of `juce::String` that the code
calls are defined after the documented behaviour of the JUCE library; all of
them are `const` and return a new string.  External calls (the command map,
the MIDI sender, the socket, the thread's exit flag, the graphics context) are
recorded in traces, and the answers of the environment are given as scripts.
An access outside the array `line` is an explicit outcome of `run`.
-/

namespace MIDI2LR

/-! ## The JUCE string operations used by `processLine` -/

/-- A `juce::String`: its characters, in order. -/
abbrev JString := List Char

/-- Whitespace in the sense of `CharacterFunctions::isWhitespace` and of C's
`isspace`: the space and the control characters 9 to 13. -/
def isWhitespace (c : Char) : Bool :=
  c.toNat == 32 || (9 ≤ c.toNat && c.toNat ≤ 13)

/-- Case folding of `CharacterFunctions::toUpperCase`, on the ASCII letters. -/
def toUpperCase (c : Char) : Char :=
  if 97 ≤ c.toNat ∧ c.toNat ≤ 122 then Char.ofNat (c.toNat - 32) else c

/-- Character comparison, case-insensitive when `ignoreCase` is set. -/
def sameChar (ignoreCase : Bool) (a b : Char) : Bool :=
  if ignoreCase then toUpperCase a == toUpperCase b else a == b

/-- Whether `sub` occurs at the very start of the text. -/
def startsWith (ignoreCase : Bool) : JString → JString → Bool
  | [], _ => true
  | _ :: _, [] => false
  | p :: ps, c :: cs => sameChar ignoreCase p c && startsWith ignoreCase ps cs

/-- The `String::indexOf` and `String::indexOfIgnoreCase` search for a non-empty
`sub`: the index of the first occurrence, `none` where JUCE returns `-1`. -/
def indexOf (ignoreCase : Bool) (sub : JString) : JString → Option Nat
  | [] => none
  | c :: cs =>
    if startsWith ignoreCase sub (c :: cs) then some 0
    else (indexOf ignoreCase sub cs).map (· + 1)

/-- The method `String::trimEnd() const`: a copy without the trailing
whitespace.  The receiver is left as it is. -/
def trimEnd (s : JString) : JString :=
  (s.reverse.dropWhile isWhitespace).reverse

/-- The method `String::upToFirstOccurrenceOf (sub, includeSubString, ignoreCase)`:
the whole string when `sub` does not occur, else the start of the string up to
the first occurrence, with or without the occurrence itself. -/
def upToFirstOccurrenceOf (s sub : JString) (includeSubString ignoreCase : Bool) : JString :=
  match indexOf ignoreCase sub s with
  | none => s
  | some i => s.take (if includeSubString then i + sub.length else i)

/-- The scan of `String::replace`: `skip` counts the characters of an occurrence
still to be dropped; outside an occurrence, an occurrence of `sub` starting at
the current character is replaced by `ins` and the scan goes on after it. -/
def replaceScan (ignoreCase : Bool) (sub ins : JString) : Nat → JString → JString
  | _, [] => []
  | skip + 1, _ :: cs => replaceScan ignoreCase sub ins skip cs
  | 0, c :: cs =>
    if startsWith ignoreCase sub (c :: cs) then
      ins ++ replaceScan ignoreCase sub ins (sub.length - 1) cs
    else c :: replaceScan ignoreCase sub ins 0 cs

/-- The method `String::replace (stringToReplace, stringToInsert, ignoreCase)`:
every occurrence of `sub`, found left to right from the end of the previous
replacement, is replaced by `ins`; an empty `sub` is never found. -/
def replace (s sub ins : JString) (ignoreCase : Bool) : JString :=
  if sub = [] then s else replaceScan ignoreCase sub ins 0 s

/-- The value of a run of decimal digits at the start of the text, continuing
from `acc`; it stops at the first character that is not a digit. -/
def digitsValue : Nat → JString → Nat
  | acc, [] => acc
  | acc, c :: cs =>
    if 48 ≤ c.toNat ∧ c.toNat ≤ 57 then digitsValue (acc * 10 + (c.toNat - 48)) cs else acc

/-- Narrowing to a 32-bit `int`. -/
def wrapInt32 (z : Int) : Int := (z + 2 ^ 31) % 2 ^ 32 - 2 ^ 31

/-- The method `String::getIntValue()` (C's `atoi` on the text): leading whitespace
is skipped, an optional sign is read, then the digits; the text after them is
ignored and a text without digits gives `0`.  A value outside the 32-bit range
is not defined by C; here it wraps. -/
def getIntValue (s : JString) : Int :=
  match s.dropWhile isWhitespace with
  | '-' :: r => wrapInt32 (-(digitsValue 0 r : Int))
  | '+' :: r => wrapInt32 (digitsValue 0 r)
  | r => wrapInt32 (digitsValue 0 r)

/-- The method `String::endsWithChar`: the last character is `c`. -/
def endsWithChar (s : JString) (c : Char) : Bool :=
  s.getLast? == some c

/-! ## The command map and the MIDI sender -/

/-- The record `MIDI_Message`, with the two fields `processLine` reads. -/
structure MIDI_Message where
  channel : Int
  controller : Int
  deriving DecidableEq, Repr

/-- Modelled from the spec: the Mapping Table of `CommandMap.h` (not among the
sources), `lookup(identifier) -> Option<MidiMessageDescriptor>`, keys unique. -/
abbrev CommandMap := JString → Option MIDI_Message

/-- Modelled from the spec: `CommandMap::commandHasAssociatedMessage`, whether
the table has an entry for the identifier. -/
def commandHasAssociatedMessage (map : CommandMap) (command : JString) : Bool :=
  (map command).isSome

/-- Modelled from the spec: `CommandMap::getMessageForCommand`, the descriptor
bound to the identifier. -/
def getMessageForCommand (map : CommandMap) (command : JString) : MIDI_Message :=
  (map command).getD ⟨0, 0⟩

/-- The calls `processLine` makes on its collaborators. -/
inductive Call
  | commandHasAssociatedMessage (command : JString)
  | getMessageForCommand (command : JString)
  | queueCCForSending (channel controller value : Int)
  deriving DecidableEq, Repr

/-- Whether a call is a call of the Dispatch Sink. -/
def Call.isDispatch : Call → Bool
  | .queueCCForSending _ _ _ => true
  | _ => false

/-- Whether a call is a call of `getMessageForCommand`. -/
def Call.isGetMessage : Call → Bool
  | .getMessageForCommand _ => true
  | _ => false

/-- The function `LR_IPC_IN::processLine`: the calls it makes, in order.  The
statement `line.trimEnd();` computes a trimmed copy and drops it. -/
def processLine (map : CommandMap) (line : JString) : List Call :=
  let _ := trimEnd line
  let command := upToFirstOccurrenceOf line [' '] false false
  let valueString := replace line (upToFirstOccurrenceOf line [' '] true true) [] true
  let value := getIntValue valueString
  if commandHasAssociatedMessage map command then
    let msg := getMessageForCommand map command
    [.commandHasAssociatedMessage command, .getMessageForCommand command,
     .queueCCForSending msg.channel msg.controller value]
  else
    [.commandHasAssociatedMessage command]

/-- The table of the spec's examples: `brightness` on channel 1, controller 10. -/
def brightnessMap : CommandMap := fun c =>
  if c = "brightness".toList then some ⟨1, 10⟩ else none

/-- A table that binds the identifier `x` only. -/
def xMap : CommandMap := fun c =>
  if c = ['x'] then some ⟨1, 10⟩ else none

/-! ## The reader thread: `LR_IPC_IN::run` -/

/-- What `read (line + sizeRead, 1, false)` did. -/
inductive ReadResult
  /-- It stored the byte `b` (below 256) at the destination and returned `1`. -/
  | byte (b : Nat)
  /-- It stored nothing and returned `0`. -/
  | nothing
  /-- It stored nothing and returned `-1`. -/
  | failed
  deriving DecidableEq, Repr

/-- The answer of the transport in one iteration of the inner loop: the result
of `waitUntilReady (true, 0)` and, used only when that is positive, what the
`read` that follows does. -/
structure Poll where
  waitStatus : Int
  read : ReadResult
  deriving DecidableEq, Repr

/-- What `run` does that can be seen from outside. -/
inductive RunEvent
  | waitUntilReady (waitStatus : Int)
  | wait (milliseconds : Nat)
  /-- A call `read (line + offset, 1, false)` and the number it returned. -/
  | read (offset : Int) (returned : Int)
  | processLine (param : JString)
  deriving DecidableEq, Repr

/-- How an execution of `run` ends. -/
inductive Outcome
  /-- The outer loop saw `threadShouldExit()` and `run` returned. -/
  | returned
  /-- The script of the environment is used up and `run` is still looping. -/
  | running
  /-- The expression `String (line)` found no NUL among the 256 bytes of `line`
  and read past the array; `sizeRead` is the write offset at that moment. -/
  | stringPastBuffer (sizeRead : Int)
  /-- The call `read (line + offset, ...)` stored a byte outside `line`. -/
  | writePastBuffer (offset : Int)
  deriving DecidableEq, Repr

/-- An execution of `run`: its events in order, and how it ends. -/
structure RunResult where
  events : List RunEvent
  outcome : Outcome
  deriving DecidableEq, Repr

/-- The execution that starts with the event `e` and goes on as `r`. -/
def RunResult.after (e : RunEvent) (r : RunResult) : RunResult :=
  ⟨e :: r.events, r.outcome⟩

/-- The declaration `char line[256] = \x7b '\0' \x7d`: 256 zero bytes. -/
def freshLine : List Nat := List.replicate 256 0

/-- The conversion `String (line)` of the NUL-terminated bytes of `line`: the
bytes before the first NUL, `none` when the array holds no NUL. -/
def cString (line : List Nat) : Option JString :=
  if 0 ∈ line then some ((line.takeWhile (· != 0)).map Char.ofNat) else none

/-- The number `read` returns. -/
def ReadResult.returned : ReadResult → Int
  | .byte _ => 1
  | .nothing => 0
  | .failed => -1

/-- The place of `run` at which the next `threadShouldExit()` is called: the
condition of the outer `while`, or the condition of the inner one (after
`!String(line).endsWithChar('\n')` was found true). -/
inductive Pc
  | outer
  | inner
  deriving DecidableEq, Repr

/-- The two loops of `LR_IPC_IN::run`, from a call of `threadShouldExit()` on.
`exits` are the answers of the successive calls of `threadShouldExit()`,
`polls` the answers of the transport; `line` and `sizeRead` are the locals
of the outer loop's body (`canReadLine` is `true` at the inner condition). -/
def runFrom : List Bool → Pc → List Nat → Int → List Poll → RunResult
  | [], _, _, _, _ => ⟨[], .running⟩
  | e :: es, .outer, _, _, polls =>
    if e then ⟨[], .returned⟩
    else runFrom es .inner freshLine 0 polls
  | e :: es, .inner, line, sizeRead, polls =>
    if e then
      -- the inner loop ends with `canReadLine` still true
      match cString line with
      | none => ⟨[], .stringPastBuffer sizeRead⟩
      | some param => (runFrom es .outer line sizeRead polls).after (.processLine param)
    else
      match polls with
      | [] => ⟨[], .running⟩
      | p :: ps =>
        if p.waitStatus < 0 then
          -- `canReadLine = false; break;`
          (runFrom es .outer line sizeRead ps).after (.waitUntilReady p.waitStatus)
        else if p.waitStatus = 0 then
          -- `wait(100); continue;`
          ((runFrom es .inner line sizeRead ps).after (.wait 100)).after
            (.waitUntilReady p.waitStatus)
        else
          -- `sizeRead += read(line + sizeRead, 1, false);`
          let stored : Option (List Nat) :=
            match p.read with
            | .byte b =>
              if 0 ≤ sizeRead ∧ sizeRead < 256 then some (line.set sizeRead.toNat b) else none
            | _ => some line
          match stored with
          | none =>
            ⟨[.waitUntilReady p.waitStatus, .read sizeRead p.read.returned],
             .writePastBuffer sizeRead⟩
          | some line1 =>
            let sizeRead1 := sizeRead + p.read.returned
            let rest : RunResult :=
              match cString line1 with
              | none => ⟨[], .stringPastBuffer sizeRead1⟩
              | some s =>
                if endsWithChar s '\n' then
                  (runFrom es .outer line1 sizeRead1 ps).after (.processLine s)
                else runFrom es .inner line1 sizeRead1 ps
            (rest.after (.read sizeRead p.read.returned)).after (.waitUntilReady p.waitStatus)

/-- The function `LR_IPC_IN::run`, against a script of the environment. -/
def run (exits : List Bool) (polls : List Poll) : RunResult :=
  runFrom exits .outer freshLine 0 polls

/-- The lines `run` passed to `processLine`, in order. -/
def emitted (r : RunResult) : List JString :=
  r.events.filterMap fun
    | .processLine s => some s
    | _ => none

/-- The calls on the collaborators that an execution of `run` leads to. -/
def calls (map : CommandMap) (r : RunResult) : List Call :=
  (emitted r).flatMap (processLine map)

/-- The transport has the byte `b` ready. -/
def Poll.ofByte (b : Nat) : Poll := ⟨1, .byte b⟩

/-- The transport has nothing ready (`waitStatus == 0`). -/
def Poll.notReady : Poll := ⟨0, .nothing⟩

/-- The bytes of a text, all ready. -/
def pollsOf (s : String) : List Poll := s.toList.map fun c => Poll.ofByte c.toNat

/-! ## The connection timer: `LR_IPC_IN::timerCallback` -/

/-- The constant `LR_IPC_IN::LR_IN_PORT`. -/
def LR_IN_PORT : Nat := 58764

/-- What `timerCallback` does that can be seen from outside. -/
inductive TimerEvent
  | connect (remoteHostname : String) (remotePortNumber : Nat) (timeOutMillisecs : Nat)
  | startThread
  deriving DecidableEq, Repr

/-- The function `LR_IPC_IN::timerCallback`.  `connected` is what `isConnected()`
returns at the tick and `connectSucceeds` what a `connect` at this tick returns;
the result is the events of the tick and what `isConnected()` returns after it
(the socket is connected exactly when its last `connect` succeeded). -/
def timerCallback (connected connectSucceeds : Bool) : List TimerEvent × Bool :=
  if !connected then
    if connectSucceeds then
      ([.connect "127.0.0.1" LR_IN_PORT 100, .startThread], true)
    else
      ([.connect "127.0.0.1" LR_IN_PORT 100], false)
  else
    ([], connected)

/-- Consecutive ticks of the timer, one per entry of the script: the entry says
whether a `connect` made at that tick succeeds. -/
def ticks : Bool → List Bool → List TimerEvent
  | _, [] => []
  | connected, ok :: rest =>
    (timerCallback connected ok).1 ++ ticks (timerCallback connected ok).2 rest

/-- Whether an event of the timer is a connect attempt. -/
def TimerEvent.isConnect : TimerEvent → Bool
  | .connect _ _ _ => true
  | .startThread => false

/-! ## The table painter: `CommandTableModel::paintCell` -/

/-- The enumeration `rsj::MsgIdEnum`. -/
inductive MsgIdEnum
  | kNote
  | kCc
  | kPitchBend
  deriving DecidableEq, Repr

/-- Modelled from the spec: the record `rsj::MidiMessageId` (declared outside the
sources), `channel: int`, `data: int` and the kind of message. -/
structure MidiMessageId where
  msg_id_type : MsgIdEnum
  channel : Int
  data : Int
  deriving DecidableEq, Repr

/-- Modelled from the spec: the class `Profile` (declared outside the sources),
as far as `paintCell` uses it: the number of mapping rows, a `size_t`, and the
mapping of a row. -/
structure Profile where
  Size : Nat
  GetMessageForNumber : Nat → MidiMessageId

/-- The two justifications `paintCell` draws with. -/
inductive Justification
  | centred
  | centredLeft
  deriving DecidableEq, Repr

/-- What `paintCell` does that can be seen from outside. -/
inductive PaintEvent
  | setColour (colour : String)
  | setFont (height : Nat)
  | getMessageForNumber (row : Nat)
  | drawText (text : String) (x y width height : Int) (justification : Justification)
  | log (message : String)
  deriving DecidableEq, Repr

/-- The conversion `gsl::narrow_cast<size_t>` of an `int`, with a 64-bit `size_t`. -/
def narrow_cast_size_t (i : Int) : Nat := (i % 2 ^ 64).toNat

/-- The text the `switch` of `paintCell` writes into `format_str`. -/
def formatMessage (cmd : MidiMessageId) : String :=
  match cmd.msg_id_type with
  | .kNote => toString cmd.channel ++ " | Note : " ++ toString cmd.data
  | .kCc => toString cmd.channel ++ " | CC: " ++ toString cmd.data
  | .kPitchBend => toString cmd.channel ++ " | Pitch Bend"

/-- The function `CommandTableModel::paintCell` (no exception arises in it). -/
def paintCell (profile : Profile) (row_number column_id width height : Int) : List PaintEvent :=
  [.setColour "black", .setFont 12] ++
  if column_id = 1 then
    if profile.Size ≤ narrow_cast_size_t row_number then
      [.drawText "Unknown control" 0 0 width height .centred,
       .log ("Unknown control CommandTableModel::paintCell. " ++ toString profile.Size
         ++ " rows in profile, row number to be painted is " ++ toString row_number ++ ".")]
    else
      let cmd := profile.GetMessageForNumber (narrow_cast_size_t row_number)
      [.getMessageForNumber (narrow_cast_size_t row_number),
       .drawText (formatMessage cmd) 0 0 width height .centredLeft]
  else []

/-- The bytes a script of the transport delivers, in order: those of the polls
that are ready and whose `read` stores a byte. -/
def delivered (polls : List Poll) : List Nat :=
  polls.filterMap fun p =>
    if 0 < p.waitStatus then
      match p.read with
      | .byte b => some b
      | _ => none
    else none

/-- The array `line` once the bytes `w` have been stored from its start. -/
def lineHolding (w : List Nat) : List Nat := w ++ List.replicate (256 - w.length) 0

/-- The text of a line of bytes with its newline, as `String (line)` gives it. -/
def textOfLine (l : List Nat) : JString := (l ++ [10]).map Char.ofNat

/-! ## The wording of the specification, for comparison -/

/-- The decimal text of an integer, as the host writes it on the wire. -/
def decimal (v : Int) : JString := (toString v).toList

/-- The identifier of a line in the words of the specification: the substring
before the first space. -/
def identifierOf (line : JString) : JString := line.takeWhile (· != ' ')

/-- The remainder of a line in the words of the specification: the substring
after the first space, empty when the line has no space. -/
def remainderOf (line : JString) : JString := (line.dropWhile (· != ' ')).drop 1

/-- The Command Translator in the words of the specification, without the
trimming: split on the first space, parse the remainder, look the identifier
up and dispatch on a match. -/
def processLineSpec (map : CommandMap) (line : JString) : List Call :=
  match map (identifierOf line) with
  | none => [.commandHasAssociatedMessage (identifierOf line)]
  | some msg =>
    [.commandHasAssociatedMessage (identifierOf line), .getMessageForCommand (identifierOf line),
     .queueCCForSending msg.channel msg.controller (getIntValue (remainderOf line))]

/-! ## Facts about the string operations -/

theorem toNat_ofNat_of_lt {n : Nat} (h : n < 55296) : (Char.ofNat n).toNat = n := by
  have hv : n.isValidChar := Or.inl h
  simp only [Char.ofNat, hv, Char.ofNatAux, Char.toNat, dite_true]
  rfl

theorem toUpperCase_eq_space {c : Char} (h : toUpperCase c = ' ') : c = ' ' := by
  unfold toUpperCase at h
  split at h
  · rename_i hr
    have := congrArg Char.toNat h
    rw [toNat_ofNat_of_lt (by omega)] at this
    simp at this
    omega
  · exact h

theorem sameChar_space {ic : Bool} {c : Char} : sameChar ic ' ' c = true ↔ c = ' ' := by
  unfold sameChar
  cases ic
  · simp only [Bool.false_eq_true, if_false, beq_iff_eq]
    exact eq_comm
  · simp only [if_true, beq_iff_eq]
    constructor
    · intro h
      have h1 : toUpperCase ' ' = ' ' := by decide
      rw [h1] at h
      exact toUpperCase_eq_space h.symm
    · rintro rfl; rfl

theorem sameChar_self (ic : Bool) (c : Char) : sameChar ic c c = true := by
  unfold sameChar; cases ic <;> simp

theorem startsWith_self_append (ic : Bool) (s t : JString) : startsWith ic s (s ++ t) = true := by
  induction s with
  | nil => simp [startsWith]
  | cons c cs ih => simp [startsWith, sameChar_self, ih]

/-- An occurrence of a text that holds a space needs a space in the searched text. -/
theorem startsWith_space_mem {ic : Bool} {sub s : JString} (hsub : ' ' ∈ sub)
    (h : startsWith ic sub s = true) : ' ' ∈ s := by
  induction sub generalizing s with
  | nil => simp at hsub
  | cons p ps ih =>
    cases s with
    | nil => simp [startsWith] at h
    | cons c cs =>
      simp only [startsWith, Bool.and_eq_true] at h
      rcases List.mem_cons.mp hsub with hp | hp
      · subst hp
        have := sameChar_space.mp h.1
        simp [this]
      · exact List.mem_cons_of_mem _ (ih hp h.2)

theorem indexOf_space (ic : Bool) (pre rest : JString) (hpre : ' ' ∉ pre) :
    indexOf ic [' '] (pre ++ ' ' :: rest) = some pre.length := by
  induction pre with
  | nil => simp [indexOf, startsWith, sameChar_self]
  | cons c cs ih =>
    have hc : c ≠ ' ' := fun h => hpre (by simp [h])
    have hcs : ' ' ∉ cs := fun h => hpre (List.mem_cons_of_mem _ h)
    have hs : startsWith ic [' '] (c :: (cs ++ ' ' :: rest)) = false := by
      simp only [startsWith, Bool.and_true]
      cases hh : sameChar ic ' ' c
      · rfl
      · exact absurd (sameChar_space.mp hh) hc
    simp [indexOf, hs, ih hcs]

theorem indexOf_space_none (ic : Bool) (s : JString) (hs : ' ' ∉ s) :
    indexOf ic [' '] s = none := by
  induction s with
  | nil => rfl
  | cons c cs ih =>
    have hc : c ≠ ' ' := fun h => hs (by simp [h])
    have hcs : ' ' ∉ cs := fun h => hs (List.mem_cons_of_mem _ h)
    have hsw : startsWith ic [' '] (c :: cs) = false := by
      simp only [startsWith, Bool.and_true]
      cases hh : sameChar ic ' ' c
      · rfl
      · exact absurd (sameChar_space.mp hh) hc
    simp [indexOf, hsw, ih hcs]

theorem replaceScan_no_space (ic : Bool) (sub s : JString) (hsub : ' ' ∈ sub) (hs : ' ' ∉ s) :
    replaceScan ic sub [] 0 s = s := by
  induction s with
  | nil => rfl
  | cons c cs ih =>
    have hcs : ' ' ∉ cs := fun h => hs (List.mem_cons_of_mem _ h)
    have hsw : startsWith ic sub (c :: cs) = false := by
      cases hh : startsWith ic sub (c :: cs)
      · rfl
      · exact absurd (startsWith_space_mem hsub hh) hs
    simp [replaceScan, hsw, ih hcs]

theorem replaceScan_skip (ic : Bool) (sub ins : JString) (skipped rest : JString) :
    replaceScan ic sub ins skipped.length (skipped ++ rest) = replaceScan ic sub ins 0 rest := by
  induction skipped with
  | nil => rfl
  | cons c cs ih => simpa [replaceScan] using ih

/-- Removing the text up to and with the first space leaves what follows it,
when no space follows. -/
theorem replace_leading (pre rest : JString) (hrest : ' ' ∉ rest) :
    replace (pre ++ ' ' :: rest) (pre ++ [' ']) [] true = rest := by
  have hne : pre ++ [' '] ≠ [] := by simp
  unfold replace
  rw [if_neg hne]
  cases pre with
  | nil =>
    simp only [List.nil_append, replaceScan, startsWith, sameChar_self, Bool.and_true, if_true,
      List.length_singleton, Nat.sub_self]
    exact replaceScan_no_space true [' '] rest (by simp) hrest
  | cons c cs =>
    have hsw : startsWith true (c :: cs ++ [' ']) (c :: cs ++ ' ' :: rest) = true := by
      have := startsWith_self_append true (c :: cs ++ [' ']) rest
      simpa using this
    have hlen : (c :: cs ++ [' ']).length - 1 = (cs ++ [' ']).length := by simp
    show replaceScan true (c :: cs ++ [' ']) [] 0 (c :: (cs ++ ' ' :: rest)) = rest
    rw [replaceScan, if_pos (by simpa using hsw), hlen]
    have : cs ++ ' ' :: rest = (cs ++ [' ']) ++ rest := by simp
    rw [this, replaceScan_skip]
    exact replaceScan_no_space true _ rest (by simp) hrest

theorem command_of_split (pre rest : JString) (hpre : ' ' ∉ pre) :
    upToFirstOccurrenceOf (pre ++ ' ' :: rest) [' '] false false = pre := by
  simp [upToFirstOccurrenceOf, indexOf_space false pre rest hpre]

theorem removed_of_split (pre rest : JString) (hpre : ' ' ∉ pre) :
    upToFirstOccurrenceOf (pre ++ ' ' :: rest) [' '] true true = pre ++ [' '] := by
  simp [upToFirstOccurrenceOf, indexOf_space true pre rest hpre, List.take_append_eq_append_take]

theorem upTo_no_space (s : JString) (b ic : Bool) (hs : ' ' ∉ s) :
    upToFirstOccurrenceOf s [' '] b ic = s := by
  simp [upToFirstOccurrenceOf, indexOf_space_none ic s hs]

theorem identifierOf_no_space (line : JString) : ' ' ∉ identifierOf line := by
  intro h
  have := List.mem_takeWhile_imp h
  simp at this

theorem line_split (line : JString) (h : ' ' ∈ line) :
    line = identifierOf line ++ ' ' :: remainderOf line := by
  unfold identifierOf remainderOf
  induction line with
  | nil => simp at h
  | cons c cs ih =>
    by_cases hc : c = ' '
    · subst hc; simp [List.takeWhile, List.dropWhile]
    · have hcs : ' ' ∈ cs := by
        rcases List.mem_cons.mp h with h1 | h1
        · exact absurd h1.symm hc
        · exact h1
      have hb : (c != ' ') = true := by simpa using hc
      simp only [List.takeWhile, List.dropWhile, hb, List.cons_append, List.cons.injEq, true_and]
      exact ih hcs

theorem line_no_space (line : JString) (h : ' ' ∉ line) :
    identifierOf line = line ∧ remainderOf line = [] := by
  unfold identifierOf remainderOf
  have hall : ∀ c ∈ line, (c != ' ') = true := by
    intro c hc
    have : c ≠ ' ' := fun e => h (e ▸ hc)
    simpa using this
  constructor
  · exact List.takeWhile_eq_self_iff.mpr hall
  · rw [List.dropWhile_eq_nil_iff.mpr hall]; rfl

/-- The identifier `processLine` looks up is the text before the first space. -/
theorem command_eq_identifierOf (line : JString) :
    upToFirstOccurrenceOf line [' '] false false = identifierOf line := by
  by_cases h : ' ' ∈ line
  · conv_lhs => rw [line_split line h]
    exact command_of_split _ _ (identifierOf_no_space line)
  · rw [upTo_no_space line _ _ h, (line_no_space line h).1]

/-! ## The integer parse of a decimal text -/

theorem toDigitsCore_append (fuel n : Nat) (ds : List Char) :
    Nat.toDigitsCore 10 fuel n ds = Nat.toDigitsCore 10 fuel n [] ++ ds := by
  induction fuel generalizing n ds with
  | zero => simp [Nat.toDigitsCore]
  | succ f ih =>
    simp only [Nat.toDigitsCore]
    split
    · simp
    · rw [ih (n / 10) (_ :: ds), ih (n / 10) [_]]
      simp

theorem digitChar_toNat {k : Nat} (hk : k < 10) : (Nat.digitChar k).toNat = 48 + k := by
  interval_cases k <;> rfl

theorem digitsValue_toDigitsCore (fuel : Nat) :
    ∀ n, n < fuel → ∀ t, digitsValue 0 (Nat.toDigitsCore 10 fuel n [] ++ t) = digitsValue n t := by
  induction fuel with
  | zero => intro n hn; omega
  | succ f ih =>
    intro n hn t
    have hd := digitChar_toNat (Nat.mod_lt n (by decide : 0 < 10))
    simp only [Nat.toDigitsCore]
    split
    · rename_i h0
      have hlt : n < 10 := by omega
      have hm : n % 10 = n := Nat.mod_eq_of_lt hlt
      simp only [List.singleton_append, digitsValue, hd]
      rw [if_pos (by omega)]
      congr 1
      omega
    · rename_i h0
      rw [toDigitsCore_append, List.append_assoc, ih (n / 10) (by omega)]
      simp only [List.singleton_append, digitsValue, hd]
      rw [if_pos (by omega)]
      congr 1
      omega

theorem toDigitsCore_head (fuel : Nat) : ∀ n, ∃ c cs,
    Nat.toDigitsCore 10 (fuel + 1) n [] = c :: cs ∧ 48 ≤ c.toNat ∧ c.toNat ≤ 57 := by
  induction fuel with
  | zero =>
    intro n
    have hd := digitChar_toNat (Nat.mod_lt n (by decide : 0 < 10))
    have := Nat.mod_lt n (by decide : 0 < 10)
    refine ⟨Nat.digitChar (n % 10), [], ?_, by omega, by omega⟩
    simp [Nat.toDigitsCore]
  | succ f ih =>
    intro n
    have hd := digitChar_toNat (Nat.mod_lt n (by decide : 0 < 10))
    have := Nat.mod_lt n (by decide : 0 < 10)
    rw [Nat.toDigitsCore]
    split
    · exact ⟨_, [], rfl, by omega, by omega⟩
    · obtain ⟨c, cs, hc, h1, h2⟩ := ih (n / 10)
      rw [toDigitsCore_append, hc]
      exact ⟨c, cs ++ [Nat.digitChar (n % 10)], by simp, h1, h2⟩

theorem wrapInt32_of_range {z : Int} (h1 : -2 ^ 31 ≤ z) (h2 : z < 2 ^ 31) : wrapInt32 z = z := by
  unfold wrapInt32
  norm_num at h1 h2 ⊢
  omega

/-- Parsing the digits of `n`, followed by a character that is no digit. -/
theorem digitsValue_toDigits (n : Nat) (c : Char) (t : JString)
    (hc : ¬ (48 ≤ c.toNat ∧ c.toNat ≤ 57)) :
    digitsValue 0 (Nat.toDigits 10 n ++ c :: t) = n := by
  unfold Nat.toDigits
  rw [digitsValue_toDigitsCore (n + 1) n (by omega)]
  simp [digitsValue, hc]

theorem getIntValue_digits (r : JString) (c : Char) (cs : JString) (hr : r = c :: cs)
    (h1 : 48 ≤ c.toNat) (h2 : c.toNat ≤ 57) : getIntValue r = wrapInt32 (digitsValue 0 r) := by
  subst hr
  have hw : isWhitespace c = false := by
    unfold isWhitespace
    simp
    omega
  unfold getIntValue
  simp only [List.dropWhile, hw]
  split
  · rename_i heq
    simp at heq
    rw [heq.1] at h1
    simp at h1
  · rename_i heq
    simp at heq
    rw [heq.1] at h1
    simp at h1
  · rfl

/-- The integer parse reads back the decimal text of a 32-bit integer, whatever
follows it after a newline. -/
theorem getIntValue_decimal (v : Int) (t : JString) (h1 : -2 ^ 31 ≤ v) (h2 : v < 2 ^ 31) :
    getIntValue (decimal v ++ '\n' :: t) = v := by
  have hnl : ¬ (48 ≤ ('\n' : Char).toNat ∧ ('\n' : Char).toNat ≤ 57) := by decide
  cases v with
  | ofNat m =>
    have hd : decimal (Int.ofNat m) = Nat.toDigits 10 m := rfl
    rw [hd]
    obtain ⟨c, cs, hc, hc1, hc2⟩ := toDigitsCore_head m m
    have hr : Nat.toDigits 10 m ++ '\n' :: t = c :: (cs ++ '\n' :: t) := by
      unfold Nat.toDigits; rw [hc]; rfl
    rw [getIntValue_digits _ c _ hr hc1 hc2, digitsValue_toDigits m _ t hnl]
    exact wrapInt32_of_range h1 h2
  | negSucc m =>
    have hd : decimal (Int.negSucc m) = '-' :: Nat.toDigits 10 (m + 1) := rfl
    rw [hd]
    unfold getIntValue
    have hw : isWhitespace '-' = false := by decide
    simp only [List.cons_append, List.dropWhile, hw]
    show wrapInt32 (-((digitsValue 0 (Nat.toDigits 10 (m + 1) ++ '\n' :: t) : Nat) : Int)) = _
    rw [digitsValue_toDigits (m + 1) _ t hnl]
    have : (-((m + 1 : Nat) : Int)) = Int.negSucc m := by
      simp [Int.negSucc_eq]
    rw [this]
    exact wrapInt32_of_range h1 h2

theorem toDigitsCore_all_digits (fuel : Nat) : ∀ n, ∀ c ∈ Nat.toDigitsCore 10 fuel n [],
    48 ≤ c.toNat ∧ c.toNat ≤ 57 := by
  induction fuel with
  | zero => intro n c hc; simp [Nat.toDigitsCore] at hc
  | succ f ih =>
    intro n c hc
    have hd := digitChar_toNat (Nat.mod_lt n (by decide : 0 < 10))
    have := Nat.mod_lt n (by decide : 0 < 10)
    rw [Nat.toDigitsCore] at hc
    split at hc
    · simp at hc; subst hc; omega
    · rw [toDigitsCore_append] at hc
      rcases List.mem_append.mp hc with h | h
      · exact ih _ c h
      · simp at h; subst h; omega

theorem decimal_no_space (v : Int) : ' ' ∉ decimal v ++ ['\n'] := by
  have hnat : ∀ m, ' ' ∉ Nat.toDigits 10 m := by
    intro m h
    have := toDigitsCore_all_digits (m + 1) m ' ' h
    simp at this
  intro h
  rcases List.mem_append.mp h with h | h
  · cases v with
    | ofNat m => exact hnat m h
    | negSucc m =>
      have hd : decimal (Int.negSucc m) = '-' :: Nat.toDigits 10 (m + 1) := rfl
      rw [hd] at h
      rcases List.mem_cons.mp h with h | h
      · exact absurd h (by decide)
      · exact hnat _ h
  · simp at h

/-- The calls of `processLine` on a line with a space, when the text after the
first space holds no further space. -/
theorem processLine_split (map : CommandMap) (pre rest : JString)
    (hpre : ' ' ∉ pre) (hrest : ' ' ∉ rest) :
    processLine map (pre ++ ' ' :: rest) =
      if commandHasAssociatedMessage map pre then
        [.commandHasAssociatedMessage pre, .getMessageForCommand pre,
         .queueCCForSending (getMessageForCommand map pre).channel
           (getMessageForCommand map pre).controller (getIntValue rest)]
      else [.commandHasAssociatedMessage pre] := by
  unfold processLine
  simp only [command_of_split pre rest hpre, removed_of_split pre rest hpre,
    replace_leading pre rest hrest]

/-! ## The Command Translator: `processLine` -/

/-- C1, round trip: with a table that binds a non-empty identifier without
whitespace to channel `c` and controller `k`, and a 32-bit integer `v`, the line
made of the identifier, a space, the decimal text of `v` and a newline leads to
the two lookups and to exactly one Dispatch Sink call, `(c, k, v)`. -/
theorem processLine_round_trip (map : CommandMap) (id : JString) (c k v : Int)
    (_hne : id ≠ []) (hws : ∀ ch ∈ id, isWhitespace ch = false)
    (hmap : map id = some ⟨c, k⟩) (h1 : -2 ^ 31 ≤ v) (h2 : v < 2 ^ 31) :
    processLine map (id ++ ' ' :: (decimal v ++ ['\n'])) =
      [.commandHasAssociatedMessage id, .getMessageForCommand id,
       .queueCCForSending c k v] := by
  have hid : ' ' ∉ id := fun h => by
    have := hws ' ' h
    simp [isWhitespace] at this
  rw [processLine_split map id _ hid (decimal_no_space v)]
  have hv : getIntValue (decimal v ++ ['\n']) = v := getIntValue_decimal v [] h1 h2
  simp [commandHasAssociatedMessage, getMessageForCommand, hmap, hv]

/-- The witness of C1 in the specification: `brightness 64`. -/
theorem processLine_round_trip_witness :
    processLine brightnessMap "brightness 64\n".toList =
      [.commandHasAssociatedMessage "brightness".toList,
       .getMessageForCommand "brightness".toList, .queueCCForSending 1 10 64] :=
  processLine_round_trip brightnessMap "brightness".toList 1 10 64 (by decide) (by decide)
    (by decide) (by decide) (by decide)

/-- C2, at the failing input: the line `brightness` followed by a newline keeps
its newline (the trimmed copy is dropped), so the identifier looked up is
`brightness` with the newline, the table has no such entry, and nothing is
dispatched. -/
theorem processLine_missing_value_not_dispatched :
    processLine brightnessMap "brightness\n".toList =
      [.commandHasAssociatedMessage "brightness\n".toList] := by
  decide

/-- C3, at the failing input: on the line `x x 7` with `x` mapped, the value
string is the line with every occurrence of `x` and space removed, not only
the leading one, so the code parses `7` and dispatches `(1, 10, 7)`; the split
on the first space of the specification gives the remainder `x 7`, the value
`0` and the dispatch `(1, 10, 0)`. -/
theorem processLine_repeated_identifier :
    processLine xMap "x x 7\n".toList =
      [.commandHasAssociatedMessage ['x'], .getMessageForCommand ['x'],
       .queueCCForSending 1 10 7] ∧
    processLineSpec xMap "x x 7\n".toList =
      [.commandHasAssociatedMessage ['x'], .getMessageForCommand ['x'],
       .queueCCForSending 1 10 0] := by
  decide

/-- C4, unmapped command: when the table has no entry for the identifier of the
line (the text before its first space), `processLine` only asks
`commandHasAssociatedMessage`; it makes no Dispatch Sink call and no
`getMessageForCommand` call. -/
theorem processLine_unmapped (map : CommandMap) (line : JString)
    (h : map (identifierOf line) = none) :
    processLine map line = [.commandHasAssociatedMessage (identifierOf line)] ∧
    (processLine map line).countP Call.isDispatch = 0 ∧
    (processLine map line).countP Call.isGetMessage = 0 := by
  have hp : processLine map line = [.commandHasAssociatedMessage (identifierOf line)] := by
    unfold processLine
    simp [command_eq_identifierOf, commandHasAssociatedMessage, h]
  rw [hp]
  exact ⟨rfl, rfl, rfl⟩

/-- The witness of C4 in the specification: `unknown_cmd 5`. -/
theorem processLine_unmapped_witness :
    processLine brightnessMap "unknown_cmd 5\n".toList =
      [.commandHasAssociatedMessage "unknown_cmd".toList] :=
  (processLine_unmapped brightnessMap "unknown_cmd 5\n".toList (by decide)).1

/-! ## The reader thread: `run` -/

@[simp] theorem outcome_after (e : RunEvent) (r : RunResult) : (r.after e).outcome = r.outcome := rfl

@[simp] theorem emitted_after_processLine (s : JString) (r : RunResult) :
    emitted (r.after (.processLine s)) = s :: emitted r := rfl

@[simp] theorem emitted_after_waitUntilReady (n : Int) (r : RunResult) :
    emitted (r.after (.waitUntilReady n)) = emitted r := rfl

@[simp] theorem emitted_after_wait (n : Nat) (r : RunResult) :
    emitted (r.after (.wait n)) = emitted r := rfl

@[simp] theorem emitted_after_read (o n : Int) (r : RunResult) :
    emitted (r.after (.read o n)) = emitted r := rfl

set_option maxRecDepth 100000 in
/-- C5, at the failing input: 256 ready bytes `a` without a newline.  After the
256th byte the write offset is 256, the array holds no NUL, `String (line)`
reads past it, and nothing was passed to `processLine`; when a NUL byte came
first, so that `String (line)` stays inside the array, the next byte is stored
at offset 256, outside the array. -/
theorem run_line_buffer_overrun :
    (run (List.replicate 257 false) (List.replicate 256 (Poll.ofByte 97))).outcome
        = .stringPastBuffer 256 ∧
    emitted (run (List.replicate 257 false) (List.replicate 256 (Poll.ofByte 97))) = [] ∧
    (run (List.replicate 258 false)
        (Poll.ofByte 0 :: List.replicate 256 (Poll.ofByte 97))).outcome
        = .writePastBuffer 256 := by
  decide

/-- C6, at the failing input: the bytes `brightness 6` were read, then
`threadShouldExit()` answers true.  The inner loop ends with `canReadLine`
still true, so `run` passes the partial line to `processLine` before it
returns, and `(1, 10, 6)` is dispatched. -/
theorem run_cancel_dispatches_unfinished_line :
    emitted (run (List.replicate 13 false ++ [true, true]) (pollsOf "brightness 6")) =
      ["brightness 6".toList] ∧
    (run (List.replicate 13 false ++ [true, true]) (pollsOf "brightness 6")).outcome =
      .returned ∧
    calls brightnessMap
        (run (List.replicate 13 false ++ [true, true]) (pollsOf "brightness 6")) =
      [.commandHasAssociatedMessage "brightness".toList,
       .getMessageForCommand "brightness".toList, .queueCCForSending 1 10 6] := by
  decide

/-- C7 as stated fails: after a negative readiness result, with the exit flag
never raised, `run` does not return; it polls the transport again. -/
theorem run_polls_again_after_failure :
    run [false, false, false, false] [⟨-1, .nothing⟩, ⟨-1, .nothing⟩] =
      ⟨[.waitUntilReady (-1), .waitUntilReady (-1)], .running⟩ := by
  decide

theorem runFrom_not_returned (exits : List Bool) (hex : ∀ e ∈ exits, e = false) :
    ∀ pc line sizeRead polls, (runFrom exits pc line sizeRead polls).outcome ≠ .returned := by
  induction exits with
  | nil => intro pc line n polls; simp [runFrom]
  | cons e es ih =>
    have he : e = false := hex e (by simp)
    have ih1 := ih (fun x hx => hex x (List.mem_cons_of_mem _ hx))
    subst he
    intro pc line n polls
    cases pc with
    | outer => simpa [runFrom] using ih1 _ _ _ _
    | inner =>
      cases polls with
      | nil => simp [runFrom]
      | cons p ps =>
        simp only [runFrom, Bool.false_eq_true, if_false]
        split
        · simpa using ih1 _ _ _ _
        · split
          · simpa using ih1 _ _ _ _
          · split
            · simp
            · simp only [outcome_after]
              split
              · simp
              · split
                · simpa using ih1 _ _ _ _
                · exact ih1 _ _ _ _

/-- C7, amended: a negative readiness result does not end `run`.  The bytes
stored so far are dropped without a `processLine` call and `run` goes back to
the exit check of its outer loop: it returns there when `threadShouldExit()`
answers true, and otherwise starts a fresh line and polls the transport again.
With the exit flag never raised, `run` never returns. -/
theorem run_after_read_failure (es : List Bool) (line : List Nat) (sizeRead : Int)
    (p : Poll) (ps : List Poll) (hp : p.waitStatus < 0) :
    runFrom (false :: true :: es) .inner line sizeRead (p :: ps) =
      ⟨[.waitUntilReady p.waitStatus], .returned⟩ ∧
    runFrom (false :: false :: es) .inner line sizeRead (p :: ps) =
      (runFrom es .inner freshLine 0 ps).after (.waitUntilReady p.waitStatus) ∧
    (∀ exits polls, (∀ e ∈ exits, e = false) → (run exits polls).outcome ≠ .returned) := by
  refine ⟨?_, ?_, fun exits polls h => runFrom_not_returned exits h _ _ _ _⟩
  · simp [runFrom, hp, RunResult.after]
  · simp [runFrom, hp]

/-- A read failure after the bytes `ab`, for the amended C7. -/
theorem run_after_read_failure_witness :
    run [false, false, false, false, false] (pollsOf "ab" ++ [⟨-1, .nothing⟩]) =
      ⟨[.waitUntilReady 1, .read 0 1, .waitUntilReady 1, .read 1 1, .waitUntilReady (-1)],
       .running⟩ ∧
    runFrom [false, true] .inner (lineHolding [97, 98]) 2 [⟨-1, .nothing⟩] =
      ⟨[.waitUntilReady (-1)], .returned⟩ :=
  ⟨by decide,
   (run_after_read_failure [] (lineHolding [97, 98]) 2 ⟨-1, .nothing⟩ [] (by decide)).1⟩

/-! ### Reassembly of lines -/

theorem takeWhile_nonzero (w t : List Nat) (hw : ∀ b ∈ w, b ≠ 0) :
    (w ++ 0 :: t).takeWhile (· != 0) = w := by
  induction w with
  | nil => simp [List.takeWhile]
  | cons b bs ih =>
    have hb : b ≠ 0 := hw b (by simp)
    have hbs : ∀ x ∈ bs, x ≠ 0 := fun x hx => hw x (List.mem_cons_of_mem _ hx)
    have hb1 : (b != 0) = true := by simpa using hb
    simp [List.takeWhile, hb1, ih hbs]

theorem lineHolding_eq (w : List Nat) (hlen : w.length < 256) :
    lineHolding w = w ++ 0 :: List.replicate (255 - w.length) 0 := by
  unfold lineHolding
  have : 256 - w.length = (255 - w.length) + 1 := by omega
  rw [this, List.replicate_succ]

theorem cString_lineHolding (w : List Nat) (hw : ∀ b ∈ w, b ≠ 0) (hlen : w.length < 256) :
    cString (lineHolding w) = some (w.map Char.ofNat) := by
  rw [lineHolding_eq w hlen]
  unfold cString
  rw [if_pos (by simp), takeWhile_nonzero w _ hw]

theorem set_after (w t : List Nat) (b : Nat) :
    (w ++ 0 :: t).set w.length b = (w ++ [b]) ++ t := by
  induction w with
  | nil => simp
  | cons x xs ih => simp

theorem lineHolding_set (w : List Nat) (b : Nat) (hlen : w.length < 256) :
    (lineHolding w).set w.length b = lineHolding (w ++ [b]) := by
  rw [lineHolding_eq w hlen, set_after]
  unfold lineHolding
  simp

theorem freshLine_eq : freshLine = lineHolding [] := rfl

theorem endsWithChar_map (w : List Nat) (hw : ∀ b ∈ w, b < 128 ∧ b ≠ 10) :
    endsWithChar (w.map Char.ofNat) '\n' = false := by
  rcases List.eq_nil_or_concat w with h | ⟨w1, b, h⟩
  · subst h; rfl
  · subst h
    have hb := hw b (by simp)
    have hne : Char.ofNat b ≠ '\n' := by
      intro h
      have := congrArg Char.toNat h
      rw [toNat_ofNat_of_lt (by omega)] at this
      exact hb.2 (by simpa using this)
    simp [endsWithChar, hne]

theorem endsWithChar_newline (w : List Nat) :
    endsWithChar ((w ++ [10]).map Char.ofNat) '\n' = true := by
  simp [endsWithChar]

/-- With no byte left to deliver and the exit flag down, nothing is emitted. -/
theorem runFrom_idle (exits : List Bool) (hex : ∀ e ∈ exits, e = false) :
    ∀ (polls : List Poll) (w : List Nat), (∀ b ∈ w, b ≠ 0 ∧ b < 128 ∧ b ≠ 10) →
      w.length < 256 → (∀ p ∈ polls, 0 ≤ p.waitStatus ∧ p.read ≠ .failed) →
      delivered polls = [] →
      emitted (runFrom exits .inner (lineHolding w) w.length polls) = [] := by
  induction exits with
  | nil => intros; rfl
  | cons e es ih =>
    have he : e = false := hex e (by simp)
    have ih1 := ih (fun x hx => hex x (List.mem_cons_of_mem _ hx))
    subst he
    intro polls w hw hlen hok hdel
    cases polls with
    | nil => rfl
    | cons p ps =>
      obtain ⟨st, rd⟩ := p
      have hp := hok ⟨st, rd⟩ (by simp)
      have hok1 : ∀ p ∈ ps, 0 ≤ p.waitStatus ∧ p.read ≠ .failed :=
        fun x hx => hok x (List.mem_cons_of_mem _ hx)
      simp only at hp
      have hnn : ¬ st < 0 := by omega
      by_cases h0 : st = 0
      · subst h0
        have hdel1 : delivered ps = [] := by simpa [delivered] using hdel
        simp only [runFrom, Bool.false_eq_true, if_false, hnn, if_true,
          emitted_after_waitUntilReady, emitted_after_wait]
        exact ih1 ps w hw hlen hok1 hdel1
      · have hpos : 0 < st := by omega
        cases rd with
        | byte b => simp [delivered, hpos] at hdel
        | failed => exact absurd rfl hp.2
        | nothing =>
          have hdel1 : delivered ps = [] := by simpa [delivered, hpos] using hdel
          have hc := cString_lineHolding w (fun b hb => (hw b hb).1) hlen
          have hend := endsWithChar_map w (fun b hb => (hw b hb).2)
          simp only [runFrom, Bool.false_eq_true, if_false, hnn, h0, ReadResult.returned,
            add_zero, hc, hend, emitted_after_waitUntilReady, emitted_after_read]
          exact ih1 ps w hw hlen hok1 hdel1

set_option maxRecDepth 10000 in
/-- One iteration of the inner loop that stores the byte `b` after the bytes
`w`, with room left for the terminating NUL. -/
theorem runFrom_byte (es : List Bool) (ps : List Poll) (w : List Nat) (b : Nat) (st : Int)
    (hst : 0 < st) (hlen : w.length + 1 < 256) (hw : ∀ x ∈ w ++ [b], x ≠ 0) :
    runFrom (false :: es) .inner (lineHolding w) w.length (⟨st, .byte b⟩ :: ps) =
      ((if endsWithChar ((w ++ [b]).map Char.ofNat) '\n' then
          (runFrom es .outer (lineHolding (w ++ [b])) (w ++ [b]).length ps).after
            (.processLine ((w ++ [b]).map Char.ofNat))
        else runFrom es .inner (lineHolding (w ++ [b])) (w ++ [b]).length ps).after
        (.read w.length 1)).after (.waitUntilReady st) := by
  have hnn : ¬ st < 0 := by omega
  have h0 : ¬ st = 0 := by omega
  have hin : (0 : Int) ≤ (w.length : Int) ∧ (w.length : Int) < 256 := by omega
  have hc := cString_lineHolding (w ++ [b]) hw (by simp; omega)
  have hset := lineHolding_set w b (by omega)
  have hcast : (w.length : Int) + 1 = ((w ++ [b]).length : Int) := by simp
  rw [runFrom]
  simp only [Bool.false_eq_true, if_false, hnn, h0]
  rw [if_pos hin]
  simp only [Int.toNat_ofNat, hset, ReadResult.returned, hc, hcast]

/-- Reassembly, from any point of the inner loop (`w` of the current line is
stored, `cur` is still to come) and from the exit check of the outer loop. -/
theorem runFrom_lines (exits : List Bool) (hex : ∀ e ∈ exits, e = false) :
    (∀ (polls : List Poll) (w cur : List Nat) (rest : List (List Nat)),
      (w ++ cur).length + 1 < 256 → (∀ b ∈ w ++ cur, b ≠ 0 ∧ b < 128 ∧ b ≠ 10) →
      (∀ l ∈ rest, l.length + 1 < 256 ∧ ∀ b ∈ l, b ≠ 0 ∧ b < 128 ∧ b ≠ 10) →
      (∀ p ∈ polls, 0 ≤ p.waitStatus ∧ p.read ≠ .failed) →
      delivered polls = cur ++ 10 :: (rest.map (· ++ [10])).flatten →
      polls.length + rest.length ≤ exits.length →
      emitted (runFrom exits .inner (lineHolding w) w.length polls) =
        textOfLine (w ++ cur) :: rest.map textOfLine) ∧
    (∀ (polls : List Poll) (lines : List (List Nat)) (line : List Nat) (n : Int),
      (∀ l ∈ lines, l.length + 1 < 256 ∧ ∀ b ∈ l, b ≠ 0 ∧ b < 128 ∧ b ≠ 10) →
      (∀ p ∈ polls, 0 ≤ p.waitStatus ∧ p.read ≠ .failed) →
      delivered polls = (lines.map (· ++ [10])).flatten →
      (lines ≠ [] → polls.length + lines.length ≤ exits.length) →
      emitted (runFrom exits .outer line n polls) = lines.map textOfLine) := by
  induction exits with
  | nil =>
    constructor
    · intro polls w cur rest _ _ _ _ hdel hlen
      have : polls = [] := by
        cases polls with
        | nil => rfl
        | cons p ps => simp at hlen
      subst this
      simp [delivered] at hdel
    · intro polls lines line n _ _ _ hlen
      cases lines with
      | nil => rfl
      | cons l ls => simpa using hlen (by simp)
  | cons e es ih =>
    have he : e = false := hex e (by simp)
    have hes : ∀ x ∈ es, x = false := fun x hx => hex x (List.mem_cons_of_mem _ hx)
    obtain ⟨ihA, ihB⟩ := ih hes
    subst he
    constructor
    · intro polls w cur rest hlen hw hrest hok hdel hfuel
      cases polls with
      | nil => simp [delivered] at hdel
      | cons p ps =>
        obtain ⟨st, rd⟩ := p
        have hp := hok ⟨st, rd⟩ (by simp)
        have hok1 : ∀ p ∈ ps, 0 ≤ p.waitStatus ∧ p.read ≠ .failed :=
          fun x hx => hok x (List.mem_cons_of_mem _ hx)
        simp only at hp
        have hnn : ¬ st < 0 := by omega
        have hfuel1 : ps.length + rest.length ≤ es.length := by
          simp at hfuel; omega
        have hwl : w.length < 256 := by simp at hlen; omega
        have hw0 : ∀ b ∈ w, b ≠ 0 ∧ b < 128 ∧ b ≠ 10 :=
          fun b hb => hw b (List.mem_append_left _ hb)
        by_cases h0 : st = 0
        · subst h0
          have hdel1 : delivered ps = cur ++ 10 :: (rest.map (· ++ [10])).flatten := by
            simpa [delivered] using hdel
          simp only [runFrom, Bool.false_eq_true, if_false, hnn, if_true,
            emitted_after_waitUntilReady, emitted_after_wait]
          exact ihA ps w cur rest hlen hw hrest hok1 hdel1 hfuel1
        · have hpos : 0 < st := by omega
          cases rd with
          | failed => exact absurd rfl hp.2
          | nothing =>
            have hdel1 : delivered ps = cur ++ 10 :: (rest.map (· ++ [10])).flatten := by
              simpa [delivered, hpos] using hdel
            have hc := cString_lineHolding w (fun b hb => (hw0 b hb).1) hwl
            have hend := endsWithChar_map w (fun b hb => (hw0 b hb).2)
            simp only [runFrom, Bool.false_eq_true, if_false, hnn, h0, ReadResult.returned,
              add_zero, hc, hend, emitted_after_waitUntilReady, emitted_after_read]
            exact ihA ps w cur rest hlen hw hrest hok1 hdel1 hfuel1
          | byte b =>
            have hdel1 : b :: delivered ps = cur ++ 10 :: (rest.map (· ++ [10])).flatten := by
              simpa [delivered, hpos] using hdel
            cases cur with
            | nil =>
              simp only [List.nil_append, List.cons.injEq] at hdel1
              obtain ⟨hb, hdel2⟩ := hdel1
              subst hb
              have hw1 : ∀ x ∈ w ++ [10], x ≠ 0 := by
                intro x hx
                rcases List.mem_append.mp hx with h | h
                · exact (hw0 x h).1
                · simp at h; omega
              rw [runFrom_byte es ps w 10 st hpos (by simpa using hlen) hw1,
                endsWithChar_newline]
              simp only [if_true, emitted_after_waitUntilReady, emitted_after_read,
                emitted_after_processLine]
              rw [ihB ps rest _ _ hrest hok1 hdel2 (fun _ => hfuel1)]
              simp [textOfLine]
            | cons c cur1 =>
              simp only [List.cons_append, List.cons.injEq] at hdel1
              obtain ⟨hb, hdel2⟩ := hdel1
              subst hb
              have hb := hw b (by simp)
              have hw1 : ∀ x ∈ w ++ [b], x ≠ 0 ∧ x < 128 ∧ x ≠ 10 := by
                intro x hx
                rcases List.mem_append.mp hx with h | h
                · exact hw0 x h
                · simp at h; subst h; exact hb
              have hlen1 : w.length + 1 < 256 := by simp at hlen; omega
              rw [runFrom_byte es ps w b st hpos hlen1 (fun x hx => (hw1 x hx).1),
                endsWithChar_map (w ++ [b]) (fun x hx => (hw1 x hx).2)]
              simp only [Bool.false_eq_true, if_false, emitted_after_waitUntilReady,
                emitted_after_read]
              have hsplit : w ++ b :: cur1 = (w ++ [b]) ++ cur1 := by simp
              rw [hsplit] at hlen hw ⊢
              exact ihA ps (w ++ [b]) cur1 rest hlen hw hrest hok1 hdel2 hfuel1
    · intro polls lines line n hlines hok hdel hfuel
      simp only [runFrom, Bool.false_eq_true, if_false]
      cases lines with
      | nil =>
        exact runFrom_idle es hes polls [] (by simp) (by simp) hok (by simpa using hdel)
      | cons l ls =>
        have hl := hlines l (by simp)
        have hls : ∀ x ∈ ls, x.length + 1 < 256 ∧ ∀ b ∈ x, b ≠ 0 ∧ b < 128 ∧ b ≠ 10 :=
          fun x hx => hlines x (List.mem_cons_of_mem _ hx)
        have hf := hfuel (by simp)
        have := ihA polls [] l ls (by simpa using hl.1) (by simpa using hl.2) hls hok
          (by simpa using hdel) (by simp at hf; omega)
        simpa [freshLine_eq] using this

theorem delivered_ofByte (bs : List Nat) : delivered (bs.map Poll.ofByte) = bs := by
  induction bs with
  | nil => rfl
  | cons b bs ih =>
    simp only [List.map_cons, delivered, List.filterMap_cons, Poll.ofByte] at ih ⊢
    simp [ih]

theorem delivered_length_le (polls : List Poll) : (delivered polls).length ≤ polls.length :=
  List.length_filterMap_le _ _

/-- C8, partial-read reassembly and FIFO order: for lines of non-NUL ASCII bytes,
each shorter than 256 bytes with its newline, and for every script of the
transport without a failure that delivers the bytes of these lines in order
(with any not-ready polls in between), with the exit flag never raised and a
script long enough to reach the last byte, `run` passes to `processLine`
exactly these lines, in order; that is what it passes when all the bytes are
ready at once. -/
theorem run_reassembles (lines : List (List Nat)) (polls : List Poll) (exits : List Bool)
    (hlines : ∀ l ∈ lines, l.length + 1 < 256 ∧ ∀ b ∈ l, b ≠ 0 ∧ b < 128 ∧ b ≠ 10)
    (hpolls : ∀ p ∈ polls, 0 ≤ p.waitStatus ∧ p.read ≠ .failed)
    (hdel : delivered polls = (lines.map (· ++ [10])).flatten)
    (hexits : ∀ e ∈ exits, e = false)
    (hfuel : polls.length + lines.length ≤ exits.length) :
    emitted (run exits polls) = lines.map textOfLine ∧
    emitted (run exits polls) =
      emitted (run exits ((lines.map (· ++ [10])).flatten.map Poll.ofByte)) := by
  have h1 : emitted (run exits polls) = lines.map textOfLine :=
    (runFrom_lines exits hexits).2 polls lines _ _ hlines hpolls hdel (fun _ => hfuel)
  refine ⟨h1, ?_⟩
  rw [h1]
  symm
  refine (runFrom_lines exits hexits).2 _ lines _ _ hlines ?_ (delivered_ofByte _) (fun _ => ?_)
  · intro p hp
    obtain ⟨b, _, rfl⟩ := List.mem_map.mp hp
    simp [Poll.ofByte]
  · have := delivered_length_le polls
    rw [hdel] at this
    simp only [List.length_map]
    omega

/-- The witness of C8 in the specification: the fragments `bri`, `ghtness 6`
and `4` with its newline, with not-ready polls between them, give the one line
`brightness 64`, and with the table of C1 the one dispatch `(1, 10, 64)`. -/
theorem run_reassembles_witness :
    emitted (run (List.replicate 20 false)
        (pollsOf "bri" ++ [Poll.notReady] ++ pollsOf "ghtness 6"
          ++ [Poll.notReady, Poll.notReady] ++ pollsOf "4\n")) =
      ["brightness 64\n".toList] ∧
    calls brightnessMap (run (List.replicate 20 false)
        (pollsOf "bri" ++ [Poll.notReady] ++ pollsOf "ghtness 6"
          ++ [Poll.notReady, Poll.notReady] ++ pollsOf "4\n")) =
      [.commandHasAssociatedMessage "brightness".toList,
       .getMessageForCommand "brightness".toList, .queueCCForSending 1 10 64] :=
  ⟨(run_reassembles ["brightness 64".toList.map Char.toNat]
      (pollsOf "bri" ++ [Poll.notReady] ++ pollsOf "ghtness 6"
          ++ [Poll.notReady, Poll.notReady] ++ pollsOf "4\n")
      (List.replicate 20 false) (by decide) (by decide) (by decide) (by decide)
      (by decide)).1.trans (by decide),
   by decide⟩

/-! ## The connection timer: `timerCallback` -/

/-- C9, reconnect loop: a tick starts the reader thread exactly when the socket
was not connected and the connect attempt, made to `127.0.0.1` on port 58764
with a timeout of 100 ms, succeeded; a tick while connected makes no connect
attempt and starts nothing; and `N` ticks in a row whose connect attempts all
fail make exactly `N` connect attempts and start no reader. -/
theorem timerCallback_reconnect :
    (∀ connected ok, TimerEvent.startThread ∈ (timerCallback connected ok).1 ↔
      (connected = false ∧ ok = true)) ∧
    (∀ ok, (timerCallback false ok).1.filter TimerEvent.isConnect =
      [.connect "127.0.0.1" 58764 100]) ∧
    (∀ ok, timerCallback true ok = ([], true)) ∧
    (∀ N, ticks false (List.replicate N false) =
      List.replicate N (.connect "127.0.0.1" 58764 100)) ∧
    (∀ N, (ticks false (List.replicate N false)).countP TimerEvent.isConnect = N ∧
      TimerEvent.startThread ∉ ticks false (List.replicate N false)) := by
  have hN : ∀ N, ticks false (List.replicate N false) =
      List.replicate N (.connect "127.0.0.1" 58764 100) := by
    intro N
    induction N with
    | zero => rfl
    | succ n ih =>
      rw [List.replicate_succ, ticks]
      simp only [timerCallback, LR_IN_PORT, Bool.not_false, if_true, Bool.false_eq_true,
        if_false, List.singleton_append]
      rw [ih, ← List.replicate_succ]
  refine ⟨by decide, by decide, by decide, hN, fun N => ?_⟩
  rw [hN]
  constructor
  · rw [List.countP_replicate]
    simp [TimerEvent.isConnect]
  · intro h
    have := List.eq_of_mem_replicate h
    simp at this

/-! ## The table painter: `paintCell` -/

theorem narrow_cast_nonneg {i : Int} (h : 0 ≤ i) (h2 : i < 2 ^ 31) :
    narrow_cast_size_t i = i.toNat := by
  unfold narrow_cast_size_t
  norm_num at h2 ⊢
  congr 1
  omega

theorem narrow_cast_neg {i : Int} (h : i < 0) (h2 : -2 ^ 31 ≤ i) :
    2 ^ 63 ≤ narrow_cast_size_t i := by
  unfold narrow_cast_size_t
  norm_num at h2 ⊢
  omega

/-- C10: in the MIDI command column (`column_id == 1`), for every `int`
`row_number` and every profile (its size, that of a container, is below
`2 ^ 63`), `paintCell` asks the profile for a mapping only when
`0 <= row_number < Size()`, and then for that row; otherwise it draws
`Unknown control` and logs.  For a row in range the text drawn is the channel,
then ` | Note : ` and the data for a note, ` | CC: ` and the data for a CC,
` | Pitch Bend` for a pitch bend. -/
theorem paintCell_row_guard (profile : Profile) (row_number width height : Int)
    (hrow : -2 ^ 31 ≤ row_number ∧ row_number < 2 ^ 31) (hsize : profile.Size < 2 ^ 63) :
    (∀ n, PaintEvent.getMessageForNumber n ∈ paintCell profile row_number 1 width height →
      0 ≤ row_number ∧ row_number < profile.Size ∧ (n : Int) = row_number) ∧
    (¬ (0 ≤ row_number ∧ row_number < profile.Size) →
      paintCell profile row_number 1 width height =
        [.setColour "black", .setFont 12,
         .drawText "Unknown control" 0 0 width height .centred,
         .log ("Unknown control CommandTableModel::paintCell. " ++ toString profile.Size
           ++ " rows in profile, row number to be painted is " ++ toString row_number
           ++ ".")]) ∧
    ((0 ≤ row_number ∧ row_number < profile.Size) →
      ∃ text, paintCell profile row_number 1 width height =
        [.setColour "black", .setFont 12, .getMessageForNumber row_number.toNat,
         .drawText text 0 0 width height .centredLeft] ∧
        (∀ cmd, cmd = profile.GetMessageForNumber row_number.toNat →
          (cmd.msg_id_type = .kCc →
            text = toString cmd.channel ++ " | CC: " ++ toString cmd.data) ∧
          (cmd.msg_id_type = .kNote →
            text = toString cmd.channel ++ " | Note : " ++ toString cmd.data) ∧
          (cmd.msg_id_type = .kPitchBend →
            text = toString cmd.channel ++ " | Pitch Bend"))) := by
  have hin : (0 ≤ row_number ∧ row_number < profile.Size) →
      narrow_cast_size_t row_number = row_number.toNat ∧
      ¬ profile.Size ≤ row_number.toNat := by
    intro h
    exact ⟨narrow_cast_nonneg h.1 hrow.2, by omega⟩
  have hout : ¬ (0 ≤ row_number ∧ row_number < profile.Size) →
      profile.Size ≤ narrow_cast_size_t row_number := by
    intro h
    by_cases h0 : 0 ≤ row_number
    · rw [narrow_cast_nonneg h0 hrow.2]
      omega
    · have := narrow_cast_neg (by omega) hrow.1
      omega
  refine ⟨?_, ?_, ?_⟩
  · intro n hn
    by_cases h : 0 ≤ row_number ∧ row_number < profile.Size
    · obtain ⟨h1, h2⟩ := hin h
      simp only [paintCell, if_true, h1, h2, if_false] at hn
      simp at hn
      refine ⟨h.1, h.2, ?_⟩
      rw [hn]
      omega
    · have h1 := hout h
      simp only [paintCell, if_true, h1] at hn
      simp at hn
  · intro h
    have h1 := hout h
    simp only [paintCell, if_true, h1]
    rfl
  · intro h
    obtain ⟨h1, h2⟩ := hin h
    refine ⟨formatMessage (profile.GetMessageForNumber row_number.toNat), ?_, ?_⟩
    · simp only [paintCell, if_true, h1, h2, if_false]
      rfl
    · intro cmd hcmd
      subst hcmd
      unfold formatMessage
      refine ⟨fun hk => ?_, fun hk => ?_, fun hk => ?_⟩ <;> rw [hk]

/-- A profile of two rows, each a CC on channel 1 with data 10. -/
theorem paintCell_row_guard_witness :
    paintCell ⟨2, fun _ => ⟨.kCc, 1, 10⟩⟩ (-1) 1 80 20 =
      [.setColour "black", .setFont 12, .drawText "Unknown control" 0 0 80 20 .centred,
       .log ("Unknown control CommandTableModel::paintCell. 2 rows in profile, "
         ++ "row number to be painted is -1.")] ∧
    paintCell ⟨2, fun _ => ⟨.kCc, 1, 10⟩⟩ 1 1 80 20 =
      [.setColour "black", .setFont 12, .getMessageForNumber 1,
       .drawText "1 | CC: 10" 0 0 80 20 .centredLeft] :=
  ⟨((paintCell_row_guard ⟨2, fun _ => ⟨.kCc, 1, 10⟩⟩ (-1) 80 20 (by decide)
      (by decide)).2.1 (by decide)).trans (by decide),
   by decide⟩


end MIDI2LR
